import Mathlib

/-!
# rthumb — shallow embedding and verification

This file embeds the dispatch-and-cache engine of the `rthumb` thumbnail
service (crates `rthumb`, `rthumb-image`, `rthumbd`) in Lean 4 and settles a
list of claims about it.

Modelling conventions:
* Rust `u32` counters are `Nat` with explicit `% 2^32` where wrap-around
  matters (`AtomicU32::fetch_add` wraps).
* Rust `f64` mtimes are modelled as exact rationals `ℚ`; the `format!("{:.6}")`
  rendering and `str::parse::<f64>` are modelled as exact decimal
  rendering/parsing over `ℚ`.
* `anyhow::Result<T>` is `Except String T`; a provider's `process` returns
  `Option String` (`none` = success, `some msg` = the error message).
* The filesystem and the external `md5`, `png` and `image` crates are
  collaborators outside the verified core: MD5 is an abstract digest function,
  the PNG text-chunk layer is modelled as the list of `(keyword, text)` chunks
  written/read, and per-item processing outcomes are abstract functions.
* `HashMap` grouping order (`into_group_map_by`) is unspecified in the source;
  the embedding picks the canonical order given by `List.dedup` over the keys.
  All proved properties are invariant under group order.
-/

/-- `MediaRef` from `rthumb/src/lib.rs`: the unit of work. -/
structure MediaRef where
  uri : String
  mime_type : String
deriving DecidableEq, Repr

/-- `ThumbFlavor` from `rthumb/src/lib.rs`. -/
inductive ThumbFlavor where
  | Normal
  | Large
  | XLarge
  | XXLarge
deriving DecidableEq, Repr

/-- `ThumbFlavor::dimension`. -/
def ThumbFlavor.dimension : ThumbFlavor → Nat
  | .Normal => 128
  | .Large => 256
  | .XLarge => 512
  | .XXLarge => 1024

/-- `TryFrom<&str> for ThumbFlavor`: parse a flavor string, rejecting unknown
values (`std::io::ErrorKind::InvalidInput` modelled as `Except.error`). -/
def ThumbFlavor.tryFrom : String → Except String ThumbFlavor
  | "normal" => .ok .Normal
  | "large" => .ok .Large
  | "x-large" => .ok .XLarge
  | "xx-large" => .ok .XXLarge
  | _ => .error "InvalidInput"

/-- `ThumbJobBatch` from `rthumb/src/lib.rs`. -/
structure ThumbJobBatch where
  handle : Nat
  flavor : ThumbFlavor
  medias : List MediaRef

/-- `ThumbJob` from `rthumb/src/lib.rs`: a single-item work unit. -/
structure ThumbJob where
  handle : Nat
  flavor : ThumbFlavor
  media : MediaRef

/-- `ThumbFsMeta` from `rthumb/src/lib.rs`: source-file provenance.
`mtime_nsec` (an `f64` in the source) is modelled as an exact rational. -/
structure ThumbFsMeta where
  uri : String
  mtime_nsec : ℚ
  size : Nat
deriving DecidableEq, Repr

/-- `impl PartialEq for ThumbFsMeta`: uri and mtime must match exactly and the
sizes must match unless either is 0. -/
def ThumbFsMeta.eqv (a b : ThumbFsMeta) : Bool :=
  decide (a.uri = b.uri)
    && decide (a.mtime_nsec = b.mtime_nsec)
    && (decide (a.size = 0) || decide (b.size = 0) || decide (a.size = b.size))

/-- `ThumbFullMeta` from `rthumb/src/lib.rs`. -/
structure ThumbFullMeta where
  width : Nat
  height : Nat
  fs : ThumbFsMeta

/-- `cache_destination` from `rthumb/src/lib.rs`, with the environment passed
explicitly: `std::env::var "XDG_CACHE_HOME"` and `"HOME"` become two `Option
String` arguments. Path `join` with a relative component appends with `/`. -/
def pathJoin (a b : String) : String :=
  if a = "" then b
  else if a.toList.getLast? = some '/' then a ++ b
  else a ++ "/" ++ b

/-- `cache_destination` from `rthumb/src/lib.rs`. -/
def cache_destination (xdg_cache_home home : Option String) : Except String String :=
  match xdg_cache_home with
  | some path => .ok (pathJoin path "thumbnails")
  | none =>
    match home with
    | some path => .ok (pathJoin (pathJoin path ".cache") "thumbnails")
    | none => .error "both XDG_CACHE_HOME and HOME are unset"

/-- `Thumbnailer1::next_handle` from `rthumbd/src/dbus.rs`: `fetch_add(1)` on an
`AtomicU32`, which returns the previous value and wraps modulo `2^32`. The
broker state is just the counter (initialised to 1 in `create_and_listen`). -/
def next_handle (counter : Nat) : Nat × Nat :=
  (counter, (counter + 1) % 2 ^ 32)

/-- Result of a `Queue` method call: either a bus error reply, or the returned
handle together with the enqueued job. -/
inductive QueueResult where
  | err (message : String)
  | ok (handle : Nat) (job : ThumbJobBatch)

/-- `Thumbnailer1::queue` from `rthumbd/src/dbus.rs`: validate the flavor
string (rejecting unknown values with `InvalidArgs` before any handle is
allocated), then allocate a handle, zip uris with mime types position-wise and
enqueue the batch. Returns the reply and the updated counter state. -/
def Thumbnailer1.queue (counter : Nat) (uris mime_types : List String)
    (flavor : String) : QueueResult × Nat :=
  match ThumbFlavor.tryFrom flavor with
  | .error _ => (.err ("invalid flavor " ++ flavor), counter)
  | .ok fl =>
    let hc := next_handle counter
    let medias := (uris.zip mime_types).map fun um =>
      { uri := um.1, mime_type := um.2 : MediaRef }
    (.ok hc.1 { handle := hc.1, flavor := fl, medias := medias }, hc.2)

/-- The handle returned by the `k`-th `Queue` call (0-based) on a broker whose
counter starts at 1: iterate `next_handle`, taking the returned value. -/
def handleAt (k : Nat) : Nat :=
  (next_handle ((fun c => (next_handle c).2)^[k] 1)).1

/-- `itertools::partition_map`: items mapped to `inl` go to the first list,
items mapped to `inr` to the second, each preserving relative order. -/
def partMap (f : α → β ⊕ γ) : List α → List β × List γ
  | [] => ([], [])
  | a :: as =>
    let r := partMap f as
    match f a with
    | .inl b => (b :: r.1, r.2)
    | .inr c => (r.1, c :: r.2)

/-- Recursion core of `chunksOf`, structural on a fuel argument that bounds
the list length (so that the function reduces inside the kernel). -/
def chunksOfGo (fuel n : Nat) : List α → List (List α)
  | [] => []
  | x :: xs =>
    match fuel with
    | 0 => [x :: xs]
    | fuel + 1 => (x :: xs.take (n - 1)) :: chunksOfGo fuel n (xs.drop (n - 1))

/-- `itertools::chunks(n)`: split a list into consecutive chunks of `n`
elements (the last chunk may be shorter). Meaningful for `n ≥ 1`, matching the
source, which only uses positive chunk sizes. -/
def chunksOf (n : Nat) (l : List α) : List (List α) := chunksOfGo l.length n l

/-- `type Successes = Vec<MediaRef>` in `rthumb/src/lib.rs`. -/
def Successes := List MediaRef

/-- `type Failures = Vec<(MediaRef, String)>` in `rthumb/src/lib.rs`. -/
def Failures := List (MediaRef × String)

/-- The `Provider` trait of `rthumb/src/lib.rs`. `process(opaque, cache_dir,
job)` returns `anyhow::Result<()>`, modelled as `Option String` (`none` =
success, `some msg` = error). Its effect on the filesystem is outside the
model; only the outcome matters to the dispatch engine. -/
structure Provider where
  name : String
  supported_mime_types : List String
  process : Nat → String → ThumbJob → Option String

/-- `ProviderRegistry` from `rthumb/src/lib.rs`; the `HashMap` is an
association list. -/
structure ProviderRegistry where
  providers : List Provider
  mime_type_map : List (String × Nat)
  cache_dir : String

/-- `ProviderRegistry::get_provider`: look the mime type up in the map and
index into the provider list. -/
def ProviderRegistry.get_provider (reg : ProviderRegistry) (mime_type : String) :
    Option Provider :=
  match reg.mime_type_map.lookup mime_type with
  | some idx => reg.providers.get? idx
  | none => none

/-- `ProviderRegistry::process_batch_sequentially`: enumerate the batch's
medias and partition them by the provider's per-item outcome (`partition_map`
after `enumerate`). -/
def ProviderRegistry.process_batch_sequentially (p : Provider) (cache_dir : String)
    (b : ThumbJobBatch) : List MediaRef × List (MediaRef × String) :=
  partMap
    (fun im =>
      match p.process im.1 cache_dir
          { handle := b.handle, flavor := b.flavor, media := im.2 } with
      | none => Sum.inl im.2
      | some err => Sum.inr (im.2, err))
    b.medias.enum

/-- `ProviderRegistry::process_request`: group the batch's medias by mime type
(`into_group_map_by`; the `HashMap` key order is unspecified in the source and
canonicalised here via `List.dedup`), reverse each group, chunk it by 2, look
up the provider for each chunk and process it (chunks with no registered
provider yield `(vec![], vec![])`), then flatten all successes and failures. -/
def ProviderRegistry.process_request (reg : ProviderRegistry) (b : ThumbJobBatch) :
    List MediaRef × List (MediaRef × String) :=
  let keys := (b.medias.map (·.mime_type)).dedup
  let chunked : List (String × ThumbJobBatch) := keys.flatMap fun k =>
    (chunksOf 2 ((b.medias.filter fun m => m.mime_type == k).reverse)).map
      fun c => (k, { handle := b.handle, flavor := b.flavor, medias := c })
  let results := chunked.map fun kc =>
    match reg.get_provider kc.1 with
    | some p => ProviderRegistry.process_batch_sequentially p reg.cache_dir kc.2
    | none => ([], [])
  ((results.map Prod.fst).flatten, (results.map Prod.snd).flatten)

/-! ## The daemon's signal pipeline (`rthumbd/src/main.rs`, `rthumbd/src/dbus.rs`) -/

/-- The four Thumbnailer1 bus signals emitted by `rthumbd`. -/
inductive Signal where
  | started (handle : Nat)
  | ready (handle : Nat) (uris : List String)
  | error (handle : Nat) (uri : String) (code : Nat) (message : String)
  | finished (handle : Nat)
deriving DecidableEq, Repr

def Signal.isStarted : Signal → Bool
  | .started _ => true
  | _ => false

def Signal.isReady : Signal → Bool
  | .ready _ _ => true
  | _ => false

def Signal.isError : Signal → Bool
  | .error _ _ _ _ => true
  | _ => false

def Signal.isFinished : Signal → Bool
  | .finished _ => true
  | _ => false

/-- `process_chunk_concurrently` from `rthumbd/src/main.rs`: enumerate the
chunk and partition by the outcome of `process_item(i, …)`. The outcome of
`process_item` (filesystem + codec work) is the abstract function `itemRes`. -/
def process_chunk_concurrently (itemRes : Nat → MediaRef → Option String)
    (chunk : List MediaRef) : List MediaRef × List (MediaRef × String) :=
  partMap
    (fun im =>
      match itemRes im.1 im.2 with
      | none => Sum.inl im.2
      | some err => Sum.inr (im.2, err))
    chunk.enum

/-- `send_results` from `rthumbd/src/main.rs`, as the list of signals it puts
on the reply channel for one chunk: one `Ready` carrying the successes' uris,
then one `Error` (code 1, per the dispatch loop in `dbus.rs`) per failure. -/
def chunkSignals (itemRes : Nat → MediaRef → Option String) (handle : Nat)
    (chunk : List MediaRef) : List Signal :=
  let sf := process_chunk_concurrently itemRes chunk
  .ready handle (sf.1.map (·.uri)) :: sf.2.map fun fe => .error handle fe.1.uri 1 fe.2

/-- `t` is an interleaving of the source lists `ls`: every element of `t` is
drawn from the head of one of the sources, and each source's internal order is
preserved. Models the arbitrary order in which concurrent `spawn_blocking`
chunk tasks put their replies on the shared channel. -/
inductive Interleaves : List (List α) → List α → Prop where
  | nil (ls : List (List α)) : (∀ l ∈ ls, l = []) → Interleaves ls []
  | step (ls : List (List α)) (i : Nat) (a : α) (rest : List α) (t : List α) :
      ls.get? i = some (a :: rest) → Interleaves (ls.set i rest) t →
      Interleaves ls (a :: t)

/-- The per-request signal traces the daemon's main loop can emit for one
received batch (`main` in `rthumbd/src/main.rs`): `Started` first (emitted by
the dispatch loop on receipt), then any interleaving of the per-chunk reply
traces (the chunks are `medias.rev().chunks(chunk_size)` and run concurrently),
then `Finished` after all chunk tasks have been joined. -/
def mainRequestTrace (itemRes : Nat → MediaRef → Option String) (chunk_size : Nat)
    (handle : Nat) (medias : List MediaRef) (t : List Signal) : Prop :=
  ∃ mid,
    Interleaves ((chunksOf chunk_size medias.reverse).map (chunkSignals itemRes handle)) mid ∧
    t = .started handle :: (mid ++ [.finished handle])

/-! ## `GetSupported` (`rthumbd/src/dbus.rs`) and the image provider
(`rthumb-image/src/lib.rs`) -/

/-- `itertools::dedup`: remove *consecutive* duplicates. -/
def dedupConsecutive : List String → List String
  | [] => []
  | [a] => [a]
  | a :: b :: rest =>
    if a = b then dedupConsecutive (b :: rest) else a :: dedupConsecutive (b :: rest)

/-- `ImageProvider::supported_mime_types` from `rthumb-image/src/lib.rs`:
`image::ImageFormat::all()` mime types (the external `image` crate's list,
passed as the argument `lib_mime_types`) chained with
`"image/vnd.microsoft.icon"`, consecutive-deduplicated. -/
def ImageProvider.supported_mime_types (lib_mime_types : List String) : List String :=
  dedupConsecutive (lib_mime_types ++ ["image/vnd.microsoft.icon"])

/-- `Thumbnailer1::get_supported` from `rthumbd/src/dbus.rs`: schemes start as
`["file"]`, mime types are the `image` crate's list chained with
`"image/vnd.microsoft.icon"` and consecutive-deduplicated; the returned pair of
lists is the cartesian product of the two, projected component-wise. -/
def Thumbnailer1.get_supported (lib_mime_types : List String) :
    List String × List String :=
  let schemes := ["file"]
  let mime_types := dedupConsecutive (lib_mime_types ++ ["image/vnd.microsoft.icon"])
  let it := schemes.flatMap fun s => mime_types.map fun m => (s, m)
  (it.map Prod.fst, it.map Prod.snd)

/-! ## Decimal rendering and parsing

Models the string layer of the provenance codec: Rust's `format!("{}", n)` on
integers, `format!("{:.6}", x)` on the mtime, `str::parse::<u64>` and
`str::parse::<f64>` (the latter idealised to exact decimal parsing over `ℚ`,
restricted to the plain `[-]digits[.digits]` grammar). -/

/-- A decimal digit (`< 10`) as its ASCII character. -/
def digitChar (d : Nat) : Char := Char.ofNat (48 + d)

/-- Decimal digits of `n`, least significant first; `[]` for 0. -/
def natDigitsRev (n : Nat) : List Nat :=
  if h : n = 0 then [] else (n % 10) :: natDigitsRev (n / 10)
termination_by n
decreasing_by exact Nat.div_lt_self (Nat.pos_of_ne_zero h) (by omega)

/-- The character list of `format!("{}", n)`. -/
def natChars (n : Nat) : List Char :=
  if n = 0 then ['0'] else (natDigitsRev n).reverse.map digitChar

/-- `format!("{}", n)` for an unsigned integer. -/
def natRender (n : Nat) : String := String.mk (natChars n)

/-- The digit value of an ASCII character, if it is one. -/
def charDigit? (c : Char) : Option Nat :=
  if 48 ≤ c.toNat ∧ c.toNat ≤ 57 then some (c.toNat - 48) else none

/-- Convert a character list to its digit values; `none` if any is no digit. -/
def digitsOf? : List Char → Option (List Nat)
  | [] => some []
  | c :: cs =>
    match charDigit? c, digitsOf? cs with
    | some d, some ds => some (d :: ds)
    | _, _ => none

/-- Value of a big-endian digit list. -/
def digitsVal (ds : List Nat) : Nat := ds.foldl (fun a d => 10 * a + d) 0

/-- `str::parse::<u64>` on a character list (digits only, nonempty). -/
def parseNatChars (l : List Char) : Option Nat :=
  match l with
  | [] => none
  | _ =>
    match digitsOf? l with
    | some ds => some (digitsVal ds)
    | none => none

/-- `str::parse::<u64>`. -/
def parseNat? (s : String) : Option Nat := parseNatChars s.toList

/-- Round to the nearest integer, ties to even (the rounding of Rust's
fixed-precision float formatting). -/
def roundHalfEven (q : ℚ) : ℤ :=
  if q - ⌊q⌋ < 1 / 2 then ⌊q⌋
  else if 1 / 2 < q - ⌊q⌋ then ⌊q⌋ + 1
  else if ⌊q⌋ % 2 = 0 then ⌊q⌋ else ⌊q⌋ + 1

/-- Exactly `k` decimal digit characters for `m < 10^k` (left zero-padded). -/
def padDigitChars (k m : Nat) : List Char :=
  List.replicate (k - (natDigitsRev m).length) '0' ++ (natDigitsRev m).reverse.map digitChar

/-- `format!("{:.6}", x)`: round to six fractional digits (ties to even) and
render as `[-]intpart.dddddd`. The sign follows the sign of `x` itself, as in
Rust (`-0.0000001` renders as `-0.000000`). -/
def format6 (q : ℚ) : String :=
  let scaled := roundHalfEven (q * 1000000)
  let a := scaled.natAbs
  (if q < 0 then "-" else "") ++ natRender (a / 1000000) ++ "." ++
    String.mk (padDigitChars 6 (a % 1000000))

/-- Split a character list at the first `'.'`, if any. -/
def splitAtDot : List Char → List Char × Option (List Char)
  | [] => ([], none)
  | c :: cs =>
    if c = '.' then ([], some cs)
    else
      let r := splitAtDot cs
      (c :: r.1, r.2)

/-- Unsigned decimal literal to its exact rational value. -/
def parseUnsignedDec (l : List Char) : Option ℚ :=
  let sd := splitAtDot l
  match sd.2 with
  | none => (parseNatChars sd.1).map fun n => (n : ℚ)
  | some fp =>
    match parseNatChars sd.1, parseNatChars fp with
    | some i, some f => some ((i : ℚ) + (f : ℚ) / (10 : ℚ) ^ fp.length)
    | _, _ => none

/-- `str::parse::<f64>`, idealised to exact decimal parsing over `ℚ` and
restricted to the `[-]digits[.digits]` grammar (the only shape the writer
emits; anything else is rejected, as Rust rejects non-numeric text). -/
def parseDec (s : String) : Option ℚ :=
  if s.toList.head? = some '-' then (parseUnsignedDec s.toList.tail).map Neg.neg
  else parseUnsignedDec s.toList

/-! ## Provenance codec (`rthumb/src/lib.rs`): PNG text chunks

The `png` crate is an external collaborator; the codec is modelled at the
text-chunk level, as the ordered list of `(keyword, text)` chunks written to /
read from the cache file. -/

/-- `write_thumb_with_original_metadata`: the three text chunks it writes, in
order (`Thumb::URI` verbatim, `Thumb::MTime` via `format!("{:.6}")`,
`Thumb::Size` via `format!("{}")`). -/
def write_thumb_with_original_metadata (meta : ThumbFullMeta) : List (String × String) :=
  [("Thumb::URI", meta.fs.uri),
   ("Thumb::MTime", format6 meta.fs.mtime_nsec),
   ("Thumb::Size", natRender meta.fs.size)]

/-- The reader's accumulator: `let mut uri / mtime_nsec / size = None`. -/
structure ReadState where
  uri : Option String
  mtime_nsec : Option ℚ
  size : Option Nat
deriving DecidableEq, Repr

/-- One iteration of the reader's chunk loop in `get_thumb_original_metadata`:
match on the keyword, later occurrences overwrite earlier ones, unknown
keywords are skipped. -/
def readChunkStep (st : ReadState) (c : String × String) : ReadState :=
  if c.1 = "Thumb::URI" then { st with uri := some c.2 }
  else if c.1 = "Thumb::MTime" then { st with mtime_nsec := parseDec c.2 }
  else if c.1 = "Thumb::Size" then { st with size := parseNat? c.2 }
  else st

/-- `get_thumb_original_metadata`, given the decoded text chunks: fold the
chunk loop, then require `uri` and `mtime_nsec` (`ok_or`) and default `size`
to 0 (`unwrap_or(0)`). -/
def get_thumb_original_metadata (chunks : List (String × String)) :
    Except String ThumbFsMeta :=
  let st := chunks.foldl readChunkStep ⟨none, none, none⟩
  match st.uri with
  | none => .error "missing uri"
  | some u =>
    match st.mtime_nsec with
    | none => .error "missing mtime_nsec"
    | some mt => .ok { uri := u, mtime_nsec := mt, size := st.size.getD 0 }

/-! ## Filename derivation (`rthumb/src/lib.rs`) -/

/-- A hex digit (`< 16`) as its lowercase ASCII character. -/
def hexDigitChar (d : Nat) : Char :=
  if d < 10 then Char.ofNat (48 + d) else Char.ofNat (87 + d)

/-- `write!("{:0>2x}", byte)` for a byte: two lowercase hex digits, the high
nibble zero-padded. -/
def byteHexChars (b : Nat) : List Char := [hexDigitChar (b / 16), hexDigitChar (b % 16)]

/-- `impl Display for HexSlice`: concatenated per-byte two-digit lowercase
hex. -/
def hexSlice (bytes : List Nat) : String := String.mk (bytes.flatMap byteHexChars)

/-- `uri_hash`: lowercase hex of the MD5 digest of the uri. The external
`md5::compute` is the abstract digest argument (16 bytes, each `< 256`). -/
def uri_hash (md5 : String → List Nat) (uri : String) : String := hexSlice (md5 uri)

/-- `destination_filename`: `dir.join(format!("{}.png", uri_hash(uri)))`. -/
def destination_filename (md5 : String → List Nat) (dir uri : String) : String :=
  pathJoin dir (uri_hash md5 uri ++ ".png")

/-- `temp_filename`: `dir.join(format!("{}.tmp{}", uri_hash(uri), id))`. -/
def temp_filename (md5 : String → List Nat) (dir uri : String) (id : Nat) : String :=
  pathJoin dir (uri_hash md5 uri ++ ".tmp" ++ natRender id)

/-- Value of a little-endian decimal digit list (proof helper). -/
def valRev : List Nat → Nat
  | [] => 0
  | d :: ds => d + 10 * valRev ds

/-- The text of the last chunk carrying the given keyword, if any (the
reader's loop lets later occurrences overwrite earlier ones). -/
def lastChunkText (key : String) (chunks : List (String × String)) : Option String :=
  ((chunks.filter fun c => c.1 = key).getLast?).map (·.2)

/-! ## General lemmas -/

theorem handleAt_eq (k : Nat) : handleAt k = (1 + k) % 2 ^ 32 := by
  have hiter : ∀ n : Nat, (fun c => (next_handle c).2)^[n] 1 = (1 + n) % 2 ^ 32 := by
    intro n
    induction n with
    | zero => simp
    | succ n ih =>
      rw [Function.iterate_succ_apply', ih]
      show ((1 + n) % 2 ^ 32 + 1) % 2 ^ 32 = (1 + (n + 1)) % 2 ^ 32
      rw [Nat.mod_add_mod, Nat.add_assoc]
  rw [handleAt, hiter]
  rfl

/-! ## C6 — handle monotonicity -/

/-- C6 counterexample: the handle counter is a wrapping `AtomicU32`
(`fetch_add` wraps modulo `2^32`), so the claim "for every pair of successful
calls, the earlier call's handle is strictly less than the later call's
handle" fails across the wrap: call number `2^32 - 2` (0-based) returns handle
`2^32 - 1` while the next call returns handle 0. -/
theorem c6_counterexample : ¬ handleAt (2 ^ 32 - 2) < handleAt (2 ^ 32 - 1) := by
  rw [handleAt_eq, handleAt_eq]
  have h1 : 1 + (2 ^ 32 - 2) = 2 ^ 32 - 1 := by norm_num
  have h2 : 1 + (2 ^ 32 - 1) = 2 ^ 32 := by norm_num
  rw [h1, h2, Nat.mod_self, Nat.mod_eq_of_lt (by norm_num)]
  omega

/-- C6 (amended): the first `Queue` call receives handle 1, and handles of
successive successful calls are strictly increasing (hence never reused) as
long as the 32-bit counter has not wrapped, i.e. among the first `2^32 - 1`
calls; the wrap at call `2^32 - 1` is the overflow the spec leaves open. -/
theorem c6_handles_monotone (i j : Nat) (hij : i < j) (hj : j < 2 ^ 32 - 1) :
    handleAt 0 = 1 ∧ handleAt i < handleAt j := by
  constructor
  · rw [handleAt_eq]
    norm_num
  · rw [handleAt_eq, handleAt_eq, Nat.mod_eq_of_lt (by omega), Nat.mod_eq_of_lt (by omega)]
    omega

/-- C6 witness: the amended theorem at `i = 0`, `j = 1`. -/
theorem c6_handles_monotone_witness : handleAt 0 = 1 ∧ handleAt 0 < handleAt 1 :=
  c6_handles_monotone 0 1 (by norm_num) (by norm_num)

/-! ## C4 — the asymmetric metadata equality -/

/-- C4: `ThumbFsMeta` equality holds iff the uris match, the mtimes match, and
either size is 0 or the sizes match; in particular when either size is 0 the
records compare equal exactly when uri and mtime match. -/
theorem c4_meta_equality (a b : ThumbFsMeta) :
    (ThumbFsMeta.eqv a b = true ↔
      (a.uri = b.uri ∧ a.mtime_nsec = b.mtime_nsec ∧
        (a.size = 0 ∨ b.size = 0 ∨ a.size = b.size))) ∧
    (a.size = 0 ∨ b.size = 0 →
      (ThumbFsMeta.eqv a b = true ↔ (a.uri = b.uri ∧ a.mtime_nsec = b.mtime_nsec))) := by
  constructor
  · simp only [ThumbFsMeta.eqv, Bool.and_eq_true, Bool.or_eq_true, decide_eq_true_eq]
    tauto
  · intro hz
    simp only [ThumbFsMeta.eqv, Bool.and_eq_true, Bool.or_eq_true, decide_eq_true_eq]
    constructor
    · rintro ⟨⟨h1, h2⟩, _⟩
      exact ⟨h1, h2⟩
    · rintro ⟨h1, h2⟩
      refine ⟨⟨h1, h2⟩, ?_⟩
      rcases hz with hz | hz
      · exact Or.inl (Or.inl hz)
      · exact Or.inl (Or.inr hz)

/-- C4 witness: two records with equal uri and mtime, sizes 0 and 7, compare
equal; flipping the mtime breaks equality. -/
theorem c4_meta_equality_witness :
    ThumbFsMeta.eqv ⟨"file:///a", 5, 0⟩ ⟨"file:///a", 5, 7⟩ = true ∧
    ThumbFsMeta.eqv ⟨"file:///a", 5, 0⟩ ⟨"file:///a", 6, 7⟩ = false := by
  constructor
  · exact (c4_meta_equality ⟨"file:///a", 5, 0⟩ ⟨"file:///a", 5, 7⟩).1.mpr
      ⟨rfl, rfl, Or.inl rfl⟩
  · decide

/-! ## C9 — cache root resolution -/

/-- C9: `cache_destination` returns `$XDG_CACHE_HOME/thumbnails` when
`XDG_CACHE_HOME` is set, else `$HOME/.cache/thumbnails` when `HOME` is set,
errors iff both are unset, and every successful result carries the
`thumbnails` suffix. -/
theorem c9_cache_destination (xdg home : Option String) :
    (∀ p, xdg = some p →
      cache_destination xdg home = .ok (pathJoin p "thumbnails")) ∧
    (xdg = none → ∀ p, home = some p →
      cache_destination xdg home = .ok (pathJoin (pathJoin p ".cache") "thumbnails")) ∧
    ((∃ e, cache_destination xdg home = .error e) ↔ (xdg = none ∧ home = none)) ∧
    (∀ r, cache_destination xdg home = .ok r → ∃ pre, r = pre ++ "thumbnails") := by
  refine ⟨?_, ?_, ?_, ?_⟩
  · rintro p rfl
    rfl
  · rintro rfl p rfl
    rfl
  · constructor
    · rintro ⟨e, he⟩
      cases xdg with
      | some p => simp [cache_destination] at he
      | none =>
        cases home with
        | some p => simp [cache_destination] at he
        | none => exact ⟨rfl, rfl⟩
    · rintro ⟨rfl, rfl⟩
      exact ⟨_, rfl⟩
  · intro r hr
    have hsuffix : ∀ a, ∃ pre, pathJoin a "thumbnails" = pre ++ "thumbnails" := by
      intro a
      unfold pathJoin
      split_ifs
      · exact ⟨"", rfl⟩
      · exact ⟨a, rfl⟩
      · exact ⟨a ++ "/", rfl⟩
    cases xdg with
    | some p =>
      simp only [cache_destination, Except.ok.injEq] at hr
      exact hr ▸ hsuffix p
    | none =>
      cases home with
      | some p =>
        simp only [cache_destination, Except.ok.injEq] at hr
        exact hr ▸ hsuffix (pathJoin p ".cache")
      | none => simp [cache_destination] at hr

/-- C9 witness: the three cases at concrete environments. -/
theorem c9_cache_destination_witness :
    cache_destination (some "/xdg") (some "/home") = .ok "/xdg/thumbnails" ∧
    cache_destination none (some "/home") = .ok "/home/.cache/thumbnails" ∧
    (∃ e, cache_destination none none = .error e) := by
  refine ⟨?_, ?_, ?_⟩
  · have h := (c9_cache_destination (some "/xdg") (some "/home")).1 "/xdg" rfl
    rw [h]
    rfl
  · have h := (c9_cache_destination none (some "/home")).2.1 rfl "/home" rfl
    rw [h]
    rfl
  · exact (c9_cache_destination none none).2.2.1.mpr ⟨rfl, rfl⟩

/-! ## C10 — invalid flavor consumes no handle -/

/-- C10: a `Queue` call rejected for an unknown flavor string returns a bus
error, leaves the broker's handle counter unchanged (the flavor is validated
before `next_handle` runs), and the next call behaves exactly as if the failed
call had never occurred. -/
theorem c10_queue_invalid_flavor (counter : Nat) (uris mime_types : List String)
    (flavor : String) (hbad : ∃ e, ThumbFlavor.tryFrom flavor = .error e) :
    (∃ msg, (Thumbnailer1.queue counter uris mime_types flavor).1 = .err msg) ∧
    (Thumbnailer1.queue counter uris mime_types flavor).2 = counter ∧
    (∀ uris2 mime_types2 flavor2,
      Thumbnailer1.queue (Thumbnailer1.queue counter uris mime_types flavor).2
          uris2 mime_types2 flavor2
        = Thumbnailer1.queue counter uris2 mime_types2 flavor2) := by
  obtain ⟨e, he⟩ := hbad
  refine ⟨⟨"invalid flavor " ++ flavor, ?_⟩, ?_, ?_⟩
  · simp [Thumbnailer1.queue, he]
  · simp [Thumbnailer1.queue, he]
  · intro uris2 mime_types2 flavor2
    simp [Thumbnailer1.queue, he]

/-- C10 witness: the theorem at flavor `"huge"` on counter 5, with the next
call instantiated to a valid `"normal"` request. -/
theorem c10_queue_invalid_flavor_witness :
    (∃ msg, (Thumbnailer1.queue 5 ["file:///a"] ["image/png"] "huge").1
      = QueueResult.err msg) ∧
    (Thumbnailer1.queue 5 ["file:///a"] ["image/png"] "huge").2 = 5 ∧
    Thumbnailer1.queue (Thumbnailer1.queue 5 ["file:///a"] ["image/png"] "huge").2
        ["file:///b"] ["image/png"] "normal"
      = Thumbnailer1.queue 5 ["file:///b"] ["image/png"] "normal" := by
  have h := c10_queue_invalid_flavor 5 ["file:///a"] ["image/png"] "huge"
    ⟨"InvalidInput", rfl⟩
  exact ⟨h.1, h.2.1, h.2.2 ["file:///b"] ["image/png"] "normal"⟩

/-! ## C5 — `GetSupported` -/

/-- C5 counterexample: with the `image` crate declaring at least one mime type
(here just `image/png`), `GetSupported`'s cartesian product makes the schemes
list repeat `"file"` once per mime type, so it is not the single-element list
`["file"]`. -/
theorem c5_counterexample :
    (Thumbnailer1.get_supported ["image/png"]).1 ≠ ["file"] := by
  decide

/-- C5 (amended): `GetSupported` returns a schemes list consisting of `"file"`
repeated once per mime type (every element is `"file"`, but the list has one
entry per mime type, not one entry), and a mime-types list equal to the sole
registered provider's declarations (`ImageProvider::supported_mime_types`,
i.e. the `image` crate's formats chained with `image/vnd.microsoft.icon`,
consecutive-deduplicated). -/
theorem c5_get_supported (lib_mime_types : List String) :
    (Thumbnailer1.get_supported lib_mime_types).2
        = ImageProvider.supported_mime_types lib_mime_types ∧
    (Thumbnailer1.get_supported lib_mime_types).1
        = List.replicate (ImageProvider.supported_mime_types lib_mime_types).length
            "file" ∧
    (∀ s ∈ (Thumbnailer1.get_supported lib_mime_types).1, s = "file") := by
  refine ⟨?_, ?_, ?_⟩
  · simp [Thumbnailer1.get_supported, ImageProvider.supported_mime_types,
      List.map_map, Function.comp]
  · simp [Thumbnailer1.get_supported, ImageProvider.supported_mime_types,
      List.map_map, Function.comp, List.map_const']
  · intro s hs
    simp only [Thumbnailer1.get_supported, List.flatMap_cons, List.flatMap_nil,
      List.append_nil, List.map_map, List.mem_map] at hs
    obtain ⟨m, _, rfl⟩ := hs
    rfl

/-- C5 witness: the amended theorem at the singleton library list
`["image/png"]`, where the schemes list is `["file", "file"]`. -/
theorem c5_get_supported_witness :
    (Thumbnailer1.get_supported ["image/png"]).2
        = ImageProvider.supported_mime_types ["image/png"] ∧
    (Thumbnailer1.get_supported ["image/png"]).1 = ["file", "file"] := by
  have h := c5_get_supported ["image/png"]
  refine ⟨h.1, ?_⟩
  rw [h.2.1]
  decide

/-! ## C7 — filename derivation -/

theorem hexDigitChar_mem (d : Nat) (hd : d < 16) :
    hexDigitChar d ∈ "0123456789abcdef".toList := by
  interval_cases d <;> decide

theorem byteHexChars_mem (b : Nat) (hb : b < 256) :
    ∀ c ∈ byteHexChars b, c ∈ "0123456789abcdef".toList := by
  intro c hc
  simp only [byteHexChars, List.mem_cons, List.not_mem_nil, or_false] at hc
  rcases hc with rfl | rfl
  · exact hexDigitChar_mem (b / 16) (Nat.div_lt_of_lt_mul (by omega))
  · exact hexDigitChar_mem (b % 16) (Nat.mod_lt b (by omega))

theorem length_flatMap_byteHex (bytes : List Nat) :
    (bytes.flatMap byteHexChars).length = 2 * bytes.length := by
  induction bytes with
  | nil => rfl
  | cons b bs ih =>
    simp only [List.flatMap_cons, List.length_append, List.length_cons, ih, byteHexChars,
      List.length_nil]
    ring

/-- C7: `destination_filename` is `dir` joined with the lowercase hex MD5
digest followed by `.png`; `temp_filename` is the digest followed by `.tmp`
and the decimal id; the hex rendering is two lowercase hex characters per
digest byte; and both functions are pure (equal arguments give equal paths). -/
theorem c7_filenames (md5 : String → List Nat) (dir uri : String) (id : Nat)
    (hbytes : ∀ b ∈ md5 uri, b < 256) :
    destination_filename md5 dir uri = pathJoin dir (hexSlice (md5 uri) ++ ".png") ∧
    temp_filename md5 dir uri id
        = pathJoin dir (hexSlice (md5 uri) ++ ".tmp" ++ natRender id) ∧
    (hexSlice (md5 uri)).length = 2 * (md5 uri).length ∧
    (∀ c ∈ (hexSlice (md5 uri)).toList, c ∈ "0123456789abcdef".toList) ∧
    (∀ dir2 uri2 id2, dir = dir2 → uri = uri2 → id = id2 →
      destination_filename md5 dir uri = destination_filename md5 dir2 uri2 ∧
      temp_filename md5 dir uri id = temp_filename md5 dir2 uri2 id2) := by
  refine ⟨rfl, rfl, ?_, ?_, ?_⟩
  · exact length_flatMap_byteHex (md5 uri)
  · intro c hc
    have hc' : c ∈ (md5 uri).flatMap byteHexChars := hc
    obtain ⟨b, hb, hcb⟩ := List.mem_flatMap.mp hc'
    exact byteHexChars_mem b (hbytes b hb) c hcb
  · rintro dir2 uri2 id2 rfl rfl rfl
    exact ⟨rfl, rfl⟩

/-- C7 witness: the theorem at a concrete digest function (all 16 bytes 0),
with the hex rendering evaluated to 32 `'0'` characters. -/
theorem c7_filenames_witness :
    destination_filename (fun _ => List.replicate 16 0) "/cache/normal" "file:///a"
        = pathJoin "/cache/normal"
            (hexSlice (List.replicate 16 0) ++ ".png") ∧
    (hexSlice ((fun _ => List.replicate 16 0) "file:///a")).length = 32 ∧
    hexSlice (List.replicate 16 0) = "00000000000000000000000000000000" := by
  have h := c7_filenames (fun _ => List.replicate 16 0) "/cache/normal" "file:///a" 3
    (by intro b hb; simp only [List.mem_replicate] at hb; omega)
  refine ⟨h.1, ?_, by decide⟩
  have := h.2.2.1
  simpa using this

/-! ## Decimal machinery lemmas -/

theorem charDigit?_digitChar (d : Nat) (hd : d < 10) : charDigit? (digitChar d) = some d := by
  interval_cases d <;> decide

theorem natDigitsRev_lt (n : Nat) : ∀ d ∈ natDigitsRev n, d < 10 := by
  induction n using Nat.strong_induction_on with
  | _ n ih =>
    rw [natDigitsRev]
    split
    · intro d hd
      cases hd
    · next h =>
      intro d hd
      rcases List.mem_cons.mp hd with rfl | hd
      · exact Nat.mod_lt n (by omega)
      · exact ih (n / 10) (Nat.div_lt_self (Nat.pos_of_ne_zero h) (by omega)) d hd

theorem valRev_natDigitsRev (n : Nat) : valRev (natDigitsRev n) = n := by
  induction n using Nat.strong_induction_on with
  | _ n ih =>
    rw [natDigitsRev]
    split
    · next h => simp [valRev, h]
    · next h =>
      rw [valRev, ih (n / 10) (Nat.div_lt_self (Nat.pos_of_ne_zero h) (by omega))]
      omega

theorem natDigitsRev_ne_nil (n : Nat) (hn : n ≠ 0) : natDigitsRev n ≠ [] := by
  rw [natDigitsRev]
  simp [hn]

theorem natDigitsRev_length_le (k n : Nat) (h : n < 10 ^ k) :
    (natDigitsRev n).length ≤ k := by
  induction k generalizing n with
  | zero =>
    have : n = 0 := by simpa using h
    subst this
    rw [natDigitsRev]
    simp
  | succ k ih =>
    rw [natDigitsRev]
    split
    · simp
    · next hn =>
      simp only [List.length_cons, Nat.add_le_add_iff_right]
      exact ih (n / 10) (Nat.div_lt_of_lt_mul (by rw [pow_succ] at h; omega))

theorem digitsOf?_map_digitChar (ds : List Nat) (h : ∀ d ∈ ds, d < 10) :
    digitsOf? (ds.map digitChar) = some ds := by
  induction ds with
  | nil => rfl
  | cons d ds ih =>
    rw [List.map_cons, digitsOf?, charDigit?_digitChar d (h d (List.mem_cons_self d ds)),
      ih fun x hx => h x (List.mem_cons_of_mem d hx)]

theorem digitsOf?_append (l1 l2 : List Char) (d1 d2 : List Nat)
    (h1 : digitsOf? l1 = some d1) (h2 : digitsOf? l2 = some d2) :
    digitsOf? (l1 ++ l2) = some (d1 ++ d2) := by
  induction l1 generalizing d1 with
  | nil =>
    rw [digitsOf?] at h1
    cases h1
    simpa using h2
  | cons c cs ih =>
    rw [digitsOf?] at h1
    rw [List.cons_append, digitsOf?]
    cases hc : charDigit? c with
    | none => rw [hc] at h1; cases h1
    | some d =>
      rw [hc] at h1
      cases hcs : digitsOf? cs with
      | none => rw [hcs] at h1; cases h1
      | some ds =>
        rw [hcs] at h1
        cases h1
        rw [ih ds hcs]
        rfl

theorem digitsOf?_replicate_zero (k : Nat) :
    digitsOf? (List.replicate k '0') = some (List.replicate k 0) := by
  induction k with
  | zero => rfl
  | succ k ih => rw [List.replicate_succ, List.replicate_succ, digitsOf?, ih]; rfl

theorem foldl_digits (ds : List Nat) (a : Nat) :
    ds.reverse.foldl (fun x d => 10 * x + d) a = a * 10 ^ ds.length + valRev ds := by
  induction ds generalizing a with
  | nil => simp [valRev]
  | cons d ds ih =>
    rw [List.reverse_cons, List.foldl_append, ih]
    simp only [List.foldl_cons, List.foldl_nil, valRev, List.length_cons]
    ring

theorem digitsVal_reverse (ds : List Nat) : digitsVal ds.reverse = valRev ds := by
  rw [digitsVal, foldl_digits]
  simp

theorem foldl_zero_append (z : Nat) (ds : List Nat) :
    digitsVal (List.replicate z 0 ++ ds) = digitsVal ds := by
  rw [digitsVal, List.foldl_append]
  have : List.foldl (fun a d => 10 * a + d) 0 (List.replicate z 0) = 0 := by
    induction z with
    | zero => rfl
    | succ z ih => rw [List.replicate_succ, List.foldl_cons]; simpa using ih
  rw [this]
  rfl

theorem parseNatChars_natChars (n : Nat) : parseNatChars (natChars n) = some n := by
  by_cases hn : n = 0
  · subst hn
    decide
  · have hne : natChars n ≠ [] := by
      rw [natChars, if_neg hn]
      simp [natDigitsRev_ne_nil n hn]
    have hds : digitsOf? (natChars n) = some (natDigitsRev n).reverse := by
      rw [natChars, if_neg hn]
      exact digitsOf?_map_digitChar _ fun d hd =>
        natDigitsRev_lt n d (List.mem_reverse.mp hd)
    cases hl : natChars n with
    | nil => exact absurd hl hne
    | cons c cs =>
      rw [parseNatChars, ← hl, hds]
      · show some (digitsVal (natDigitsRev n).reverse) = some n
        rw [digitsVal_reverse, valRev_natDigitsRev]
      · simp

theorem parseNat?_natRender (n : Nat) : parseNat? (natRender n) = some n :=
  parseNatChars_natChars n

theorem padDigitChars_length (k m : Nat) (h : m < 10 ^ k) :
    (padDigitChars k m).length = k := by
  rw [padDigitChars]
  have := natDigitsRev_length_le k m h
  simp only [List.length_append, List.length_replicate, List.length_map,
    List.length_reverse]
  omega

theorem parseNatChars_padDigitChars (k m : Nat) (hk : 0 < k) (h : m < 10 ^ k) :
    parseNatChars (padDigitChars k m) = some m := by
  have hds : digitsOf? (padDigitChars k m)
      = some (List.replicate (k - (natDigitsRev m).length) 0 ++ (natDigitsRev m).reverse) := by
    rw [padDigitChars]
    exact digitsOf?_append _ _ _ _ (digitsOf?_replicate_zero _)
      (digitsOf?_map_digitChar _ fun d hd => natDigitsRev_lt m d (List.mem_reverse.mp hd))
  have hne : padDigitChars k m ≠ [] := by
    intro hnil
    have := padDigitChars_length k m h
    rw [hnil] at this
    simp at this
    omega
  cases hl : padDigitChars k m with
  | nil => exact absurd hl hne
  | cons c cs =>
    rw [parseNatChars, ← hl, hds]
    · show some (digitsVal (List.replicate (k - (natDigitsRev m).length) 0
        ++ (natDigitsRev m).reverse)) = some m
      rw [foldl_zero_append, digitsVal_reverse, valRev_natDigitsRev]
    · simp

/-! ## `format6` / `parseDec` round trip -/

theorem roundHalfEven_nonneg (q : ℚ) (hq : 0 ≤ q) : 0 ≤ roundHalfEven q := by
  unfold roundHalfEven
  have hfl : (0 : ℤ) ≤ ⌊q⌋ := Int.floor_nonneg.mpr hq
  split_ifs <;> omega

theorem roundHalfEven_nonpos (q : ℚ) (hq : q < 0) : roundHalfEven q ≤ 0 := by
  unfold roundHalfEven
  have hfl : ⌊q⌋ < 0 := by
    by_contra hge
    exact absurd (Int.floor_nonneg.mp (by omega)) (not_le.mpr hq)
  split_ifs <;> omega

theorem roundHalfEven_intCast (z : ℤ) : roundHalfEven (z : ℚ) = z := by
  unfold roundHalfEven
  rw [Int.floor_intCast]
  norm_num

theorem splitAtDot_append (A B : List Char) (hA : '.' ∉ A) :
    splitAtDot (A ++ '.' :: B) = (A, some B) := by
  induction A with
  | nil => simp [splitAtDot]
  | cons c cs ih =>
    have hc : c ≠ '.' := fun h => hA (h ▸ List.mem_cons_self c cs)
    have ih' := ih fun h => hA (List.mem_cons_of_mem c h)
    simp only [List.cons_append, splitAtDot, if_neg hc, List.append_eq, ih']

theorem natChars_isDigit (n : Nat) : ∀ c ∈ natChars n, (charDigit? c).isSome := by
  intro c hc
  rw [natChars] at hc
  split at hc
  · simp only [List.mem_singleton] at hc
    subst hc
    decide
  · obtain ⟨d, hd, rfl⟩ := List.mem_map.mp hc
    rw [charDigit?_digitChar d (natDigitsRev_lt n d (List.mem_reverse.mp hd))]
    rfl

theorem natChars_ne_nil (n : Nat) : natChars n ≠ [] := by
  rw [natChars]
  split
  · simp
  · next h => simp [natDigitsRev_ne_nil n h]

theorem dot_not_mem_natChars (n : Nat) : '.' ∉ natChars n := by
  intro h
  exact absurd (natChars_isDigit n '.' h) (by decide)

theorem string_data_append (s t : String) : (s ++ t).toList = s.toList ++ t.toList := rfl

theorem parseDec_digit_head (s : String) (l1 l2 : List Char) (hs : s.toList = l1 ++ l2)
    (h1 : l1 ≠ []) (hd : ∀ c ∈ l1, (charDigit? c).isSome) :
    parseDec s = parseUnsignedDec (l1 ++ l2) := by
  cases l1 with
  | nil => exact absurd rfl h1
  | cons c cs =>
    have hc : c ≠ '-' := by
      intro hceq
      subst hceq
      exact absurd (hd '-' (List.mem_cons_self _ _)) (by decide)
    rw [parseDec, hs]
    simp only [List.cons_append, List.head?_cons, List.tail_cons]
    rw [if_neg (by simpa using hc)]

theorem parseDec_neg_head (s : String) (l : List Char) (hs : s.toList = '-' :: l) :
    parseDec s = (parseUnsignedDec l).map Neg.neg := by
  rw [parseDec, hs]
  simp

theorem parseDec_format6 (q : ℚ) :
    parseDec (format6 q) = some ((roundHalfEven (q * 1000000) : ℚ) / 1000000) := by
  have hmodlt : (roundHalfEven (q * 1000000)).natAbs % 1000000 < 10 ^ 6 :=
    Nat.lt_of_lt_of_le (Nat.mod_lt _ (by norm_num)) (by norm_num)
  have hipart := parseNatChars_natChars ((roundHalfEven (q * 1000000)).natAbs / 1000000)
  have hfpart := parseNatChars_padDigitChars 6 ((roundHalfEven (q * 1000000)).natAbs % 1000000)
    (by norm_num) hmodlt
  have hflen := padDigitChars_length 6 ((roundHalfEven (q * 1000000)).natAbs % 1000000) hmodlt
  have hvalue : ∀ a : Nat,
      ((a / 1000000 : Nat) : ℚ) + ((a % 1000000 : Nat) : ℚ) / (10 : ℚ) ^ (6 : Nat)
        = (a : ℚ) / 1000000 := by
    intro a
    have h : (1000000 : ℚ) * ((a / 1000000 : Nat) : ℚ) + ((a % 1000000 : Nat) : ℚ)
        = (a : ℚ) := by
      exact_mod_cast congrArg (fun x : Nat => (x : ℚ)) (Nat.div_add_mod a 1000000)
    have hp : ((10 : ℚ) ^ (6 : Nat)) = 1000000 := by norm_num
    rw [hp]
    field_simp
    linarith
  have hunsigned : parseUnsignedDec
      (natChars ((roundHalfEven (q * 1000000)).natAbs / 1000000)
        ++ '.' :: padDigitChars 6 ((roundHalfEven (q * 1000000)).natAbs % 1000000))
      = some (((roundHalfEven (q * 1000000)).natAbs : ℚ) / 1000000) := by
    rw [parseUnsignedDec]
    simp only [splitAtDot_append _ _ (dot_not_mem_natChars _), hipart, hfpart, hflen]
    rw [hvalue]
  by_cases hq : q < 0
  · have hz : roundHalfEven (q * 1000000) ≤ 0 :=
      roundHalfEven_nonpos _ (mul_neg_of_neg_of_pos hq (by norm_num))
    have hcast : (((roundHalfEven (q * 1000000)).natAbs : ℚ))
        = -(roundHalfEven (q * 1000000) : ℚ) := by
      rw [Int.cast_natAbs, Int.cast_abs]
      exact abs_of_nonpos (by exact_mod_cast hz)
    have hlist : (format6 q).toList
        = '-' :: (natChars ((roundHalfEven (q * 1000000)).natAbs / 1000000)
            ++ '.' :: padDigitChars 6 ((roundHalfEven (q * 1000000)).natAbs % 1000000)) := by
      rw [format6, if_pos hq]
      simp only [string_data_append]
      show ['-'] ++ natChars _ ++ ['.']
          ++ padDigitChars 6 ((roundHalfEven (q * 1000000)).natAbs % 1000000) = _
      simp
    rw [parseDec_neg_head _ _ hlist, hunsigned]
    simp only [Option.map_some']
    congr 1
    rw [hcast]
    ring
  · have hz : 0 ≤ roundHalfEven (q * 1000000) :=
      roundHalfEven_nonneg _ (mul_nonneg (not_lt.mp hq) (by norm_num))
    have hcast : (((roundHalfEven (q * 1000000)).natAbs : ℚ))
        = (roundHalfEven (q * 1000000) : ℚ) := by
      rw [Int.cast_natAbs, Int.cast_abs]
      exact abs_of_nonneg (by exact_mod_cast hz)
    have hlist : (format6 q).toList
        = natChars ((roundHalfEven (q * 1000000)).natAbs / 1000000)
            ++ '.' :: padDigitChars 6 ((roundHalfEven (q * 1000000)).natAbs % 1000000) := by
      rw [format6, if_neg hq]
      simp only [string_data_append]
      show ([] : List Char) ++ natChars _ ++ ['.']
          ++ padDigitChars 6 ((roundHalfEven (q * 1000000)).natAbs % 1000000) = _
      simp
    rw [parseDec_digit_head _ _ _ hlist (natChars_ne_nil _) (natChars_isDigit _), hunsigned,
      hcast]

/-! ## C3 — provenance round trip -/

/-- C3: reading back the chunks written by `write_thumb_with_original_metadata`
succeeds; the uri is preserved verbatim; the mtime read back is exactly the
result of formatting the original mtime with `%.6f` and parsing it again (the
claim's six-fractional-digit text encoding); the size is preserved exactly (in
particular whenever it is non-zero); and whenever the original mtime is exactly
representable with six fractional digits the read-back record equals the
original `fs` record under the custom `ThumbFsMeta` equality. -/
theorem c3_roundtrip (m : ThumbFullMeta) :
    ∃ r, get_thumb_original_metadata (write_thumb_with_original_metadata m)
        = .ok r ∧
      r.uri = m.fs.uri ∧
      some r.mtime_nsec = parseDec (format6 m.fs.mtime_nsec) ∧
      r.size = m.fs.size ∧
      (m.fs.size ≠ 0 → r.size = m.fs.size) ∧
      ((m.fs.mtime_nsec * 1000000).den = 1 → ThumbFsMeta.eqv r m.fs = true) := by
  refine ⟨⟨m.fs.uri, ((roundHalfEven (m.fs.mtime_nsec * 1000000) : ℤ) : ℚ) / 1000000,
    m.fs.size⟩, ?_, rfl, ?_, rfl, fun _ => rfl, ?_⟩
  · simp [get_thumb_original_metadata, write_thumb_with_original_metadata, readChunkStep,
      parseDec_format6, parseNat?_natRender]
  · rw [parseDec_format6]
  · intro hden
    have hq : ((m.fs.mtime_nsec * 1000000).num : ℚ) = m.fs.mtime_nsec * 1000000 := by
      have h := Rat.num_div_den (m.fs.mtime_nsec * 1000000)
      rw [hden] at h
      simpa using h
    have hround : roundHalfEven (m.fs.mtime_nsec * 1000000)
        = (m.fs.mtime_nsec * 1000000).num := by
      conv_lhs => rw [← hq]
      rw [roundHalfEven_intCast]
    have hmt : ((roundHalfEven (m.fs.mtime_nsec * 1000000) : ℤ) : ℚ) / 1000000
        = m.fs.mtime_nsec := by
      rw [hround, hq]
      field_simp
    simp [ThumbFsMeta.eqv, hmt]

/-- C3 witness: the round trip at a concrete metadata record with mtime `3/2`
(representable in six digits), evaluated to full equality. -/
theorem c3_roundtrip_witness :
    ∃ r, get_thumb_original_metadata (write_thumb_with_original_metadata
        ⟨128, 64, ⟨"file:///a.png", 3 / 2, 77⟩⟩) = .ok r ∧
      r.uri = "file:///a.png" ∧ r.size = 77 ∧
      ThumbFsMeta.eqv r ⟨"file:///a.png", 3 / 2, 77⟩ = true := by
  obtain ⟨r, hok, huri, hmt, hsz, _, heqv⟩ :=
    c3_roundtrip ⟨128, 64, ⟨"file:///a.png", 3 / 2, 77⟩⟩
  exact ⟨r, hok, huri, hsz, heqv (by norm_num)⟩

/-! ## C8 — reader contract -/

theorem readChunkStep_unknown (st : ReadState) (c : String × String)
    (h1 : c.1 ≠ "Thumb::URI") (h2 : c.1 ≠ "Thumb::MTime") (h3 : c.1 ≠ "Thumb::Size") :
    readChunkStep st c = st := by
  simp [readChunkStep, h1, h2, h3]

theorem lastChunkText_append (key : String) (l : List (String × String))
    (c : String × String) :
    lastChunkText key (l ++ [c])
      = if c.1 = key then some c.2 else lastChunkText key l := by
  rw [lastChunkText, List.filter_append]
  by_cases hc : c.1 = key
  · rw [if_pos hc]
    have hf : List.filter (fun x => decide (x.1 = key)) [c] = [c] := by simp [hc]
    rw [hf, List.getLast?_concat]
    rfl
  · rw [if_neg hc]
    have hf : List.filter (fun x => decide (x.1 = key)) [c] = [] := by simp [hc]
    rw [hf, List.append_nil]
    rfl

theorem read_state_eq (chunks : List (String × String)) :
    chunks.foldl readChunkStep ⟨none, none, none⟩ =
      ⟨lastChunkText "Thumb::URI" chunks,
       (lastChunkText "Thumb::MTime" chunks).bind fun t => parseDec t,
       (lastChunkText "Thumb::Size" chunks).bind fun t => parseNat? t⟩ := by
  induction chunks using List.reverseRecOn with
  | nil => rfl
  | append_singleton l c ih =>
    rw [List.foldl_append, List.foldl_cons, List.foldl_nil, ih,
      lastChunkText_append, lastChunkText_append, lastChunkText_append, readChunkStep]
    by_cases h1 : c.1 = "Thumb::URI"
    · have h2 : ¬ c.1 = "Thumb::MTime" := by rw [h1]; decide
      have h3 : ¬ c.1 = "Thumb::Size" := by rw [h1]; decide
      simp [h1, h2, h3]
    · by_cases h2 : c.1 = "Thumb::MTime"
      · have h3 : ¬ c.1 = "Thumb::Size" := by rw [h2]; decide
        simp [h1, h2, h3]
      · by_cases h3 : c.1 = "Thumb::Size"
        · simp [h1, h2, h3]
        · simp [h1, h2, h3]

/-- C8: the reader looks only at the `Thumb::URI`, `Thumb::MTime` and
`Thumb::Size` chunks (inserting any chunk with another keyword anywhere leaves
the result unchanged); it errors when no `Thumb::URI` chunk is present, and
when no `Thumb::MTime` chunk is present or its (last) text fails to parse; a
missing or unparseable `Thumb::Size` still succeeds, with size defaulted to 0,
while a parseable one is used as is. -/
theorem c8_reader (chunks : List (String × String)) :
    (∀ pre c suf, c.1 ≠ "Thumb::URI" → c.1 ≠ "Thumb::MTime" → c.1 ≠ "Thumb::Size" →
      get_thumb_original_metadata (pre ++ c :: suf)
        = get_thumb_original_metadata (pre ++ suf)) ∧
    (lastChunkText "Thumb::URI" chunks = none →
      get_thumb_original_metadata chunks = .error "missing uri") ∧
    ((lastChunkText "Thumb::MTime" chunks).bind (fun t => parseDec t) = none →
      ∃ e, get_thumb_original_metadata chunks = .error e) ∧
    (∀ u q, lastChunkText "Thumb::URI" chunks = some u →
      (lastChunkText "Thumb::MTime" chunks).bind (fun t => parseDec t) = some q →
      (lastChunkText "Thumb::Size" chunks).bind (fun t => parseNat? t) = none →
      get_thumb_original_metadata chunks = .ok ⟨u, q, 0⟩) ∧
    (∀ u q n, lastChunkText "Thumb::URI" chunks = some u →
      (lastChunkText "Thumb::MTime" chunks).bind (fun t => parseDec t) = some q →
      (lastChunkText "Thumb::Size" chunks).bind (fun t => parseNat? t) = some n →
      get_thumb_original_metadata chunks = .ok ⟨u, q, n⟩) := by
  refine ⟨?_, ?_, ?_, ?_, ?_⟩
  · intro pre c suf h1 h2 h3
    have hfold : (pre ++ c :: suf).foldl readChunkStep ⟨none, none, none⟩
        = (pre ++ suf).foldl readChunkStep ⟨none, none, none⟩ := by
      rw [List.foldl_append, List.foldl_append, List.foldl_cons,
        readChunkStep_unknown _ _ h1 h2 h3]
    simp only [get_thumb_original_metadata]
    rw [hfold]
  · intro hu
    simp only [get_thumb_original_metadata, read_state_eq, hu]
  · intro hmt
    simp only [get_thumb_original_metadata, read_state_eq, hmt]
    cases lastChunkText "Thumb::URI" chunks <;> exact ⟨_, rfl⟩
  · intro u q h1 h2 h3
    simp only [get_thumb_original_metadata, read_state_eq, h1, h2, h3]
    rfl
  · intro u q n h1 h2 h3
    simp only [get_thumb_original_metadata, read_state_eq, h1, h2, h3]
    rfl

/-- C8 witness: an unparseable `Thumb::MTime` is an error; unknown chunks are
ignored and a missing `Thumb::Size` defaults to 0; a missing `Thumb::URI` is
the `missing uri` error. -/
theorem c8_reader_witness :
    (∃ e, get_thumb_original_metadata
        [("Thumb::URI", "file:///a"), ("Thumb::MTime", "notanumber")] = .error e) ∧
    get_thumb_original_metadata
        [("foo", "bar"), ("Thumb::URI", "file:///a"), ("Thumb::MTime", "12345")]
      = .ok ⟨"file:///a", 12345, 0⟩ ∧
    get_thumb_original_metadata [("Thumb::MTime", "12345")] = .error "missing uri" := by
  refine ⟨?_, ?_, ?_⟩
  · exact (c8_reader [("Thumb::URI", "file:///a"), ("Thumb::MTime", "notanumber")]).2.2.1
      (by decide)
  · exact (c8_reader [("foo", "bar"), ("Thumb::URI", "file:///a"),
      ("Thumb::MTime", "12345")]).2.2.2.1 "file:///a" 12345 (by decide) (by decide) (by decide)
  · exact (c8_reader [("Thumb::MTime", "12345")]).2.1 (by decide)

/-! ## C1 — `process_request` partitions the batch -/

theorem partMap_outcome_perm (g : Nat → MediaRef → Option String) (n : Nat)
    (l : List MediaRef) :
    ((partMap (fun im => match g im.1 im.2 with
        | none => Sum.inl im.2
        | some err => Sum.inr (im.2, err)) (List.enumFrom n l)).1
      ++ ((partMap (fun im => match g im.1 im.2 with
        | none => Sum.inl im.2
        | some err => Sum.inr (im.2, err)) (List.enumFrom n l)).2.map Prod.fst)).Perm
      l := by
  induction l generalizing n with
  | nil => simp [partMap]
  | cons m ms ih =>
    rw [List.enumFrom, partMap]
    cases hg : g n m with
    | none =>
      simp only [hg]
      exact ((ih (n + 1)).cons m)
    | some e =>
      simp only [hg, List.map_cons]
      exact List.perm_middle.trans ((ih (n + 1)).cons m)

theorem chunksOfGo_flatten (n : Nat) :
    ∀ (fuel : Nat) (l : List α), l.length ≤ fuel → (chunksOfGo fuel n l).flatten = l := by
  intro fuel
  induction fuel with
  | zero =>
    intro l hl
    have : l = [] := by
      cases l with
      | nil => rfl
      | cons x xs => simp at hl
    subst this
    rfl
  | succ fuel ih =>
    intro l hl
    cases l with
    | nil => rfl
    | cons x xs =>
      rw [chunksOfGo, List.flatten_cons,
        ih (xs.drop (n - 1)) (by
          simp only [List.length_drop]
          simp only [List.length_cons] at hl
          omega)]
      simp [List.take_append_drop]

theorem chunksOf_flatten (n : Nat) (l : List α) : (chunksOf n l).flatten = l :=
  chunksOfGo_flatten n l.length l le_rfl

theorem filter_flatten (p : α → Bool) (L : List (List α)) :
    L.flatten.filter p = (L.map (List.filter p)).flatten := by
  induction L with
  | nil => rfl
  | cons l L ih => simp [List.filter_append, ih]

theorem flatten_flatMap_chunks (keys : List String) (G : String → List MediaRef)
    (n : Nat) :
    (keys.flatMap fun k => chunksOf n (G k)).flatten = keys.flatMap G := by
  induction keys with
  | nil => rfl
  | cons k ks ih =>
    simp only [List.flatMap_cons, List.flatten_append, chunksOf_flatten, ih]

theorem flatMap_perm_congr (ks : List String) (f g : String → List MediaRef)
    (h : ∀ k ∈ ks, (f k).Perm (g k)) : (ks.flatMap f).Perm (ks.flatMap g) := by
  induction ks with
  | nil => exact List.Perm.refl _
  | cons k ks ih =>
    simp only [List.flatMap_cons]
    exact (h k (List.mem_cons_self k ks)).append
      (ih fun k' hk' => h k' (List.mem_cons_of_mem k hk'))

theorem flatMap_congr_mem {β : Type _} (ks : List String)
    (f g : String → List β) (h : ∀ k ∈ ks, f k = g k) :
    ks.flatMap f = ks.flatMap g := by
  induction ks with
  | nil => rfl
  | cons k ks ih =>
    simp only [List.flatMap_cons]
    rw [h k (List.mem_cons_self k ks), ih fun k' hk' => h k' (List.mem_cons_of_mem k hk')]

theorem flatMap_filter_cons (keys : List String) (m : MediaRef) (ms : List MediaRef)
    (hk : m.mime_type ∈ keys) (hnd : keys.Nodup) :
    (keys.flatMap fun k => (m :: ms).filter fun x => x.mime_type == k).Perm
      (m :: keys.flatMap fun k => ms.filter fun x => x.mime_type == k) := by
  induction keys with
  | nil => cases hk
  | cons k ks ih =>
    simp only [List.flatMap_cons]
    by_cases hmk : m.mime_type = k
    · have hknotin : k ∉ ks := (List.nodup_cons.mp hnd).1
      have hrest : (ks.flatMap fun k' => (m :: ms).filter fun x => x.mime_type == k')
          = ks.flatMap fun k' => ms.filter fun x => x.mime_type == k' := by
        apply flatMap_congr_mem
        intro k' hk'
        have hne : (m.mime_type == k') = false :=
          beq_eq_false_iff_ne.mpr fun he => hknotin (hmk ▸ he ▸ hk')
        simp [List.filter_cons, hne]
      have hpos : (m :: ms).filter (fun x => x.mime_type == k)
          = m :: ms.filter fun x => x.mime_type == k := by
        simp [List.filter_cons, hmk]
      rw [hrest, hpos, List.cons_append]
    · have hk' : m.mime_type ∈ ks := by
        rcases List.mem_cons.mp hk with h | h
        · exact absurd h hmk
        · exact h
      have hne : (m.mime_type == k) = false := beq_eq_false_iff_ne.mpr hmk
      have hfm : (m :: ms).filter (fun x => x.mime_type == k)
          = ms.filter fun x => x.mime_type == k := by
        simp [List.filter_cons, hne]
      rw [hfm]
      have ihh := ih hk' (List.nodup_cons.mp hnd).2
      exact (List.Perm.append_left _ ihh).trans List.perm_middle

theorem flatMap_filter_perm (keys : List String) (l : List MediaRef)
    (hmem : ∀ m ∈ l, m.mime_type ∈ keys) (hnd : keys.Nodup) :
    (keys.flatMap fun k => l.filter fun m => m.mime_type == k).Perm l := by
  induction l with
  | nil =>
    have : (keys.flatMap fun k => ([] : List MediaRef).filter fun m => m.mime_type == k)
        = [] := by
      simp
    rw [this]
  | cons m ms ih =>
    exact (flatMap_filter_cons keys m ms (hmem m (List.mem_cons_self m ms)) hnd).trans
      ((ih fun x hx => hmem x (List.mem_cons_of_mem m hx)).cons m)

theorem map_flatMap_eq {β γ : Type _} (ks : List String) (f : String → List β)
    (g : β → γ) : (ks.flatMap f).map g = ks.flatMap fun k => (f k).map g := by
  induction ks with
  | nil => rfl
  | cons k ks ih => simp only [List.flatMap_cons, List.map_append, ih]

theorem flatten_flatMap_eq {β : Type _} (ks : List String) (f : String → List (List β)) :
    (ks.flatMap f).flatten = ks.flatMap fun k => (f k).flatten := by
  induction ks with
  | nil => rfl
  | cons k ks ih => simp only [List.flatMap_cons, List.flatten_append, ih]

theorem filter_flatMap_eq {β : Type _} (p : β → Bool) (ks : List String)
    (f : String → List β) :
    (ks.flatMap f).filter p = ks.flatMap fun k => (f k).filter p := by
  induction ks with
  | nil => rfl
  | cons k ks ih => simp only [List.flatMap_cons, List.filter_append, ih]

theorem perm_shuffle {β : Type _} (A1 R1 A2 R2 : List β) :
    ((A1 ++ R1) ++ (A2 ++ R2)).Perm ((A1 ++ A2) ++ (R1 ++ R2)) := by
  have h1 : (A1 ++ R1) ++ (A2 ++ R2) = A1 ++ ((R1 ++ A2) ++ R2) := by
    simp [List.append_assoc]
  have h2 : (A1 ++ A2) ++ (R1 ++ R2) = A1 ++ ((A2 ++ R1) ++ R2) := by
    simp [List.append_assoc]
  rw [h1, h2]
  exact List.Perm.append_left _ (List.Perm.append_right _ List.perm_append_comm)

theorem results_flatten_perm (p : MediaRef → Bool)
    (F : String × ThumbJobBatch → List MediaRef × List (MediaRef × String))
    (L : List (String × ThumbJobBatch))
    (H : ∀ kc ∈ L, ((F kc).1 ++ (F kc).2.map Prod.fst).Perm (kc.2.medias.filter p)) :
    (((L.map F).map Prod.fst).flatten
        ++ ((L.map F).map Prod.snd).flatten.map Prod.fst).Perm
      ((L.map fun kc => kc.2.medias.filter p).flatten) := by
  induction L with
  | nil => simp
  | cons kc rest ih =>
    simp only [List.map_cons, List.flatten_cons, List.map_append]
    have ih' := ih fun kc' hkc' => H kc' (List.mem_cons_of_mem kc hkc')
    exact (perm_shuffle _ _ _ _).trans
      ((H kc (List.mem_cons_self kc rest)).append ih')

/-- C1 counterexample: with no providers registered, a one-item batch whose
mime type has no provider is silently dropped (the source's
`FIXME: all into failures`), so `|S| + |F|` is 0, not `|b.medias| = 1`. -/
theorem c1_counterexample :
    ¬ ((({ providers := [], mime_type_map := [], cache_dir := "" } :
          ProviderRegistry).process_request
        { handle := 1, flavor := .Normal,
          medias := [{ uri := "file:///a", mime_type := "application/x-foo" }] }).1.length
      + (({ providers := [], mime_type_map := [], cache_dir := "" } :
          ProviderRegistry).process_request
        { handle := 1, flavor := .Normal,
          medias := [{ uri := "file:///a", mime_type := "application/x-foo" }] }).2.length
      = 1) := by
  decide

/-- C1 (amended): `process_request` neither drops, duplicates nor double-reports
any item whose mime type has a registered provider: the successes together with
the failures' items are a permutation of exactly those medias whose mime type
has a registered provider, and `|S| + |F|` equals the number of such medias;
items with an unregistered mime type appear in neither list. -/
theorem c1_process_request_partition (reg : ProviderRegistry) (b : ThumbJobBatch) :
    ((reg.process_request b).1 ++ (reg.process_request b).2.map Prod.fst).Perm
      (b.medias.filter fun m => (reg.get_provider m.mime_type).isSome) ∧
    (reg.process_request b).1.length + (reg.process_request b).2.length
      = (b.medias.filter fun m => (reg.get_provider m.mime_type).isSome).length := by
  set p : MediaRef → Bool := fun m => (reg.get_provider m.mime_type).isSome with hp
  set keys := (b.medias.map (·.mime_type)).dedup with hkeys
  set mkB : List MediaRef → ThumbJobBatch :=
    fun c => { handle := b.handle, flavor := b.flavor, medias := c } with hmkB
  set F : String × ThumbJobBatch → List MediaRef × List (MediaRef × String) :=
    fun kc =>
      match reg.get_provider kc.1 with
      | some pr => ProviderRegistry.process_batch_sequentially pr reg.cache_dir kc.2
      | none => ([], []) with hF
  set chunked : List (String × ThumbJobBatch) := keys.flatMap fun k =>
    (chunksOf 2 ((b.medias.filter fun m => m.mime_type == k).reverse)).map
      fun c => (k, mkB c) with hchunked
  have hpr : reg.process_request b
      = (((chunked.map F).map Prod.fst).flatten,
         ((chunked.map F).map Prod.snd).flatten) := rfl
  have hH : ∀ kc ∈ chunked,
      ((F kc).1 ++ (F kc).2.map Prod.fst).Perm (kc.2.medias.filter p) := by
    intro kc hkc
    rw [hchunked] at hkc
    obtain ⟨k, hkmem, hkc2⟩ := List.mem_flatMap.mp hkc
    obtain ⟨c, hc, rfl⟩ := List.mem_map.mp hkc2
    have hcm : ∀ x ∈ c, x.mime_type = k := by
      intro x hx
      have hxf : x ∈ (b.medias.filter fun m => m.mime_type == k).reverse := by
        rw [← chunksOf_flatten 2 ((b.medias.filter fun m => m.mime_type == k).reverse)]
        exact List.mem_flatten.mpr ⟨c, hc, hx⟩
      exact beq_iff_eq.mp (List.mem_filter.mp (List.mem_reverse.mp hxf)).2
    cases hgp : reg.get_provider k with
    | some pr =>
      have hFv : F (k, mkB c)
          = ProviderRegistry.process_batch_sequentially pr reg.cache_dir (mkB c) := by
        rw [hF]
        simp only [hgp]
      rw [hFv]
      have hfs : (mkB c).medias.filter p = c := by
        show c.filter p = c
        apply List.filter_eq_self.mpr
        intro x hx
        rw [hp]
        show (reg.get_provider x.mime_type).isSome = true
        rw [hcm x hx, hgp]
        rfl
      show ((ProviderRegistry.process_batch_sequentially pr reg.cache_dir (mkB c)).1
          ++ (ProviderRegistry.process_batch_sequentially pr reg.cache_dir
            (mkB c)).2.map Prod.fst).Perm ((mkB c).medias.filter p)
      rw [hfs]
      exact partMap_outcome_perm
        (fun i m => pr.process i reg.cache_dir
          { handle := b.handle, flavor := b.flavor, media := m }) 0 c
    | none =>
      have hFv : F (k, mkB c) = ([], []) := by
        rw [hF]
        simp only [hgp]
      rw [hFv]
      have hfs : (mkB c).medias.filter p = [] := by
        show c.filter p = []
        apply List.filter_eq_nil_iff.mpr
        intro x hx
        rw [hp]
        show ¬ (reg.get_provider x.mime_type).isSome = true
        rw [hcm x hx, hgp]
        simp
      show (([] : List MediaRef)
          ++ ([] : List (MediaRef × String)).map Prod.fst).Perm ((mkB c).medias.filter p)
      rw [hfs]
      rfl
  have hperm1 := results_flatten_perm p F chunked hH
  have hsnd : (chunked.map fun kc => kc.2.medias.filter p)
      = keys.flatMap fun k =>
        (chunksOf 2 ((b.medias.filter fun m => m.mime_type == k).reverse)).map
          (List.filter p) := by
    rw [hchunked, map_flatMap_eq]
    apply flatMap_congr_mem
    intro k hk
    rw [List.map_map]
    rfl
  have hflat2 : ((keys.flatMap fun k =>
      (chunksOf 2 ((b.medias.filter fun m => m.mime_type == k).reverse)).map
        (List.filter p)).flatten)
      = keys.flatMap fun k =>
        ((b.medias.filter fun m => m.mime_type == k).reverse.filter p) := by
    rw [flatten_flatMap_eq]
    apply flatMap_congr_mem
    intro k hk
    rw [← filter_flatten, chunksOf_flatten]
  have hbig : (keys.flatMap fun k =>
      ((b.medias.filter fun m => m.mime_type == k).reverse.filter p)).Perm
      (b.medias.filter p) := by
    rw [← filter_flatMap_eq]
    apply List.Perm.filter
    exact (flatMap_perm_congr _ _ _ fun k hk =>
      List.reverse_perm (b.medias.filter fun m => m.mime_type == k)).trans
      (flatMap_filter_perm keys b.medias
        (fun m hm => by
          rw [hkeys]
          exact List.mem_dedup.mpr (List.mem_map_of_mem (·.mime_type) hm))
        (by rw [hkeys]; exact List.nodup_dedup _))
  have hmain : ((reg.process_request b).1
      ++ (reg.process_request b).2.map Prod.fst).Perm (b.medias.filter p) := by
    rw [hpr]
    refine hperm1.trans ?_
    rw [hsnd, hflat2]
    exact hbig
  refine ⟨hmain, ?_⟩
  have hlen := hmain.length_eq
  rw [List.length_append, List.length_map] at hlen
  exact hlen

/-! ## C2 — signal traces -/

theorem flatten_set_perm {β : Type _} (ls : List (List β)) (i : Nat) (a : β)
    (rest : List β) (h : ls.get? i = some (a :: rest)) :
    ls.flatten.Perm (a :: (ls.set i rest).flatten) := by
  induction ls generalizing i with
  | nil => cases h
  | cons l ls ih =>
    cases i with
    | zero =>
      rw [List.get?_cons_zero] at h
      cases h
      simp only [List.set_cons_zero, List.flatten_cons, List.cons_append]
      exact List.Perm.refl _
    | succ i =>
      rw [List.get?_cons_succ] at h
      rw [List.set_cons_succ, List.flatten_cons, List.flatten_cons]
      exact (List.Perm.append_left l (ih i h)).trans List.perm_middle

theorem interleaves_perm {β : Type _} (ls : List (List β)) (t : List β)
    (h : Interleaves ls t) : t.Perm ls.flatten := by
  induction h with
  | nil ls hall =>
    have : ls.flatten = [] := by
      induction ls with
      | nil => rfl
      | cons l ls ih =>
        rw [List.flatten_cons, hall l (List.mem_cons_self l ls),
          ih fun x hx => hall x (List.mem_cons_of_mem l hx)]
        rfl
    rw [this]
  | step ls i a rest t hget hrec ih =>
    exact (ih.cons a).trans (flatten_set_perm ls i a rest hget).symm

theorem interleaves_nil_cons {β : Type _} (ls : List (List β)) (t : List β)
    (h : Interleaves ls t) : Interleaves ([] :: ls) t := by
  induction h with
  | nil ls hall =>
    refine .nil _ ?_
    intro l hl
    rcases List.mem_cons.mp hl with rfl | hl
    · rfl
    · exact hall l hl
  | step ls i a rest t hget hrec ih =>
    exact .step _ (i + 1) a rest t (by rw [List.get?_cons_succ]; exact hget)
      (by rw [List.set_cons_succ]; exact ih)

theorem interleaves_cons {β : Type _} (l : List β) (ls : List (List β)) (t : List β)
    (h : Interleaves ls t) : Interleaves (l :: ls) (l ++ t) := by
  induction l with
  | nil => simpa using interleaves_nil_cons ls t h
  | cons a l ih =>
    exact .step _ 0 a (l) (l ++ t) rfl (by rw [List.set_cons_zero]; exact ih)

theorem interleaves_flatten {β : Type _} (ls : List (List β)) :
    Interleaves ls ls.flatten := by
  induction ls with
  | nil => exact .nil [] (by intro l hl; cases hl)
  | cons l ls ih => exact interleaves_cons l ls _ ih

theorem countP_map_error (hh : Nat) (L : List (MediaRef × String)) :
    ((L.map fun fe => Signal.error hh fe.1.uri 1 fe.2).countP Signal.isStarted = 0) ∧
    ((L.map fun fe => Signal.error hh fe.1.uri 1 fe.2).countP Signal.isReady = 0) ∧
    ((L.map fun fe => Signal.error hh fe.1.uri 1 fe.2).countP Signal.isFinished = 0) ∧
    ((L.map fun fe => Signal.error hh fe.1.uri 1 fe.2).countP Signal.isError
      = L.length) := by
  induction L with
  | nil => exact ⟨rfl, rfl, rfl, rfl⟩
  | cons x xs ih =>
    simp only [List.map_cons, List.countP_cons, List.length_cons]
    refine ⟨?_, ?_, ?_, ?_⟩ <;>
      simp [Signal.isStarted, Signal.isReady, Signal.isFinished, Signal.isError,
        ih.1, ih.2.1, ih.2.2.1, ih.2.2.2]

theorem chunkSignals_counts (res : Nat → MediaRef → Option String) (hh : Nat)
    (c : List MediaRef) :
    ((chunkSignals res hh c).countP Signal.isStarted = 0) ∧
    ((chunkSignals res hh c).countP Signal.isReady = 1) ∧
    ((chunkSignals res hh c).countP Signal.isFinished = 0) ∧
    ((chunkSignals res hh c).countP Signal.isError
      = (process_chunk_concurrently res c).2.length) := by
  have hm := countP_map_error hh (process_chunk_concurrently res c).2
  rw [chunkSignals]
  simp only [List.countP_cons]
  refine ⟨?_, ?_, ?_, ?_⟩ <;>
    simp [Signal.isStarted, Signal.isReady, Signal.isFinished, Signal.isError,
      hm.1, hm.2.1, hm.2.2.1, hm.2.2.2]

theorem chunkTraces_counts (res : Nat → MediaRef → Option String) (hh : Nat)
    (L : List (List MediaRef)) :
    ((L.map (chunkSignals res hh)).flatten.countP Signal.isStarted = 0) ∧
    ((L.map (chunkSignals res hh)).flatten.countP Signal.isReady = L.length) ∧
    ((L.map (chunkSignals res hh)).flatten.countP Signal.isFinished = 0) ∧
    ((L.map (chunkSignals res hh)).flatten.countP Signal.isError
      = (L.map fun c => (process_chunk_concurrently res c).2.length).sum) := by
  induction L with
  | nil => exact ⟨rfl, rfl, rfl, rfl⟩
  | cons c L ih =>
    have hc := chunkSignals_counts res hh c
    simp only [List.map_cons, List.flatten_cons, List.countP_append, List.sum_cons,
      List.length_cons]
    refine ⟨?_, ?_, ?_, ?_⟩
    · rw [hc.1, ih.1]
    · rw [hc.2.1, ih.2.1]
      omega
    · rw [hc.2.2.1, ih.2.2.1]
    · rw [hc.2.2.2, ih.2.2.2]

/-- C2 counterexample: a three-item batch with the default chunk size 2 splits
into two chunks, and the daemon's `send_results` runs once per chunk, so the
emitted trace carries two `Ready` signals for the handle, not exactly one. -/
theorem c2_counterexample :
    mainRequestTrace (fun _ _ => none) 2 7
      [{ uri := "file:///a", mime_type := "image/png" },
       { uri := "file:///b", mime_type := "image/png" },
       { uri := "file:///c", mime_type := "image/png" }]
      [.started 7, .ready 7 ["file:///c", "file:///b"], .ready 7 ["file:///a"],
       .finished 7] ∧
    ¬ (([Signal.started 7, .ready 7 ["file:///c", "file:///b"],
        .ready 7 ["file:///a"], .finished 7].countP Signal.isReady) = 1) := by
  constructor
  · refine ⟨[.ready 7 ["file:///c", "file:///b"], .ready 7 ["file:///a"]], ?_, rfl⟩
    exact interleaves_flatten _
  · decide

/-- C2 (amended): for every trace the daemon can emit for one received batch,
the signal multiset contains exactly one `Started`, exactly one `Finished`,
one `Ready` per chunk of the batch (`⌈n / chunk_size⌉` in total, not exactly
one), and exactly one `Error` per failed item; `Finished` is emitted last,
after every other signal of the handle, even when every item failed. -/
theorem c2_signal_multiset (itemRes : Nat → MediaRef → Option String)
    (chunk_size handle : Nat) (medias : List MediaRef) (t : List Signal)
    (_hcs : 0 < chunk_size)
    (ht : mainRequestTrace itemRes chunk_size handle medias t) :
    t.countP Signal.isStarted = 1 ∧
    t.countP Signal.isFinished = 1 ∧
    t.countP Signal.isReady = (chunksOf chunk_size medias.reverse).length ∧
    t.countP Signal.isError
      = ((chunksOf chunk_size medias.reverse).map
          fun c => (process_chunk_concurrently itemRes c).2.length).sum ∧
    t.getLast? = some (.finished handle) := by
  obtain ⟨mid, hint, rfl⟩ := ht
  have hmid := interleaves_perm _ _ hint
  have hcounts := chunkTraces_counts itemRes handle (chunksOf chunk_size medias.reverse)
  have hmidS : mid.countP Signal.isStarted = 0 := (hmid.countP_eq _).trans hcounts.1
  have hmidR : mid.countP Signal.isReady
      = (chunksOf chunk_size medias.reverse).length := (hmid.countP_eq _).trans hcounts.2.1
  have hmidF : mid.countP Signal.isFinished = 0 := (hmid.countP_eq _).trans hcounts.2.2.1
  have hmidE : mid.countP Signal.isError
      = ((chunksOf chunk_size medias.reverse).map
          fun c => (process_chunk_concurrently itemRes c).2.length).sum :=
    (hmid.countP_eq _).trans hcounts.2.2.2
  refine ⟨?_, ?_, ?_, ?_, ?_⟩
  · simp [List.countP_cons, List.countP_append, hmidS,
      Signal.isStarted, Signal.isFinished]
  · simp [List.countP_cons, List.countP_append, hmidF,
      Signal.isStarted, Signal.isFinished]
  · simp [List.countP_cons, List.countP_append, hmidR,
      Signal.isStarted, Signal.isReady, Signal.isFinished]
  · simp [List.countP_cons, List.countP_append, hmidE,
      Signal.isStarted, Signal.isError, Signal.isFinished]
  · rw [← List.cons_append, List.getLast?_concat]

/-- C2 witness: a two-item batch in one chunk where every item fails still
emits `Started`, one `Ready` (with an empty uri list), one `Error` per item,
and `Finished` last. -/
theorem c2_signal_multiset_witness :
    ([Signal.started 5, .ready 5 [], .error 5 "file:///b" 1 "boom",
        .error 5 "file:///a" 1 "boom", .finished 5].countP Signal.isStarted = 1) ∧
    ([Signal.started 5, .ready 5 [], .error 5 "file:///b" 1 "boom",
        .error 5 "file:///a" 1 "boom", .finished 5].countP Signal.isFinished = 1) ∧
    ([Signal.started 5, .ready 5 [], .error 5 "file:///b" 1 "boom",
        .error 5 "file:///a" 1 "boom", .finished 5].countP Signal.isReady = 1) ∧
    ([Signal.started 5, .ready 5 [], .error 5 "file:///b" 1 "boom",
        .error 5 "file:///a" 1 "boom", .finished 5].countP Signal.isError = 2) ∧
    ([Signal.started 5, .ready 5 [], .error 5 "file:///b" 1 "boom",
        .error 5 "file:///a" 1 "boom", .finished 5].getLast?
      = some (.finished 5)) := by
  have h := c2_signal_multiset (fun _ _ => some "boom") 2 5
    [{ uri := "file:///a", mime_type := "image/png" },
     { uri := "file:///b", mime_type := "image/png" }]
    [Signal.started 5, .ready 5 [], .error 5 "file:///b" 1 "boom",
      .error 5 "file:///a" 1 "boom", .finished 5]
    (by norm_num)
    ⟨[Signal.ready 5 [], .error 5 "file:///b" 1 "boom", .error 5 "file:///a" 1 "boom"],
      interleaves_flatten _, rfl⟩
  exact ⟨h.1, h.2.1, h.2.2.1.trans (by decide), h.2.2.2.1.trans (by decide), h.2.2.2.2⟩
